import Mathlib

/-!
Verification of the Hill-Climbing test-suite-minimization program.

The program is embedded shallowly:

* a coverage matrix is a `List (List Bool)`;
* the preprocessing routines (`_apply_mode_a`, `_apply_mode_b`,
  `_apply_mode_c` in `src/preprocessing.py`) work on matrices whose rows
  are tests and whose columns are requirements;
* the minimizer / optimizer routines (`check_solution_coverage`,
  `calculate_coverage_percentage` in `src/test_suite_minimizer.py`,
  everything in `src/hill_climbing_optimizer.py`) work on matrices whose
  rows are requirements and whose columns are tests, mirroring the
  transpose performed by `TestSuiteMinimizer.load_matrix`;
* `float` arithmetic on coverage percentages and fitness values is
  modelled by exact rationals, and the `float("inf")` fitness of the
  empty solution by the top element of `WithTop ℚ`.
-/

namespace TSM

/-- A coverage matrix: a list of boolean rows. -/
abbrev Mat := List (List Bool)

/-- Entry lookup in a boolean vector; out-of-range reads are `false`
(numpy would raise, but every use below stays in range for rectangular
matrices). -/
def getB (l : List Bool) (j : Nat) : Bool := l.getD j false

/-- Row `i` of a matrix (`coverage_matrix[i, :]`). -/
def rowOf (M : Mat) (i : Nat) : List Bool := M.getD i []

/-- Number of columns, `coverage_matrix.shape[1]` for a rectangular
matrix. -/
def widthOf (M : Mat) : Nat := (M.headD []).length

/-- `np.all(u <= v)` for same-length boolean vectors: every position set
in `u` is set in `v`. -/
def vecLe (u v : List Bool) : Bool := (u.zip v).all (fun p => !p.1 || p.2)

/-! ## Mode A (`PreprocessingModes._apply_mode_a`): test reduction.
Rows are tests, columns are requirements. -/

/-- The condition under which the left-to-right scan of `_apply_mode_a`
removes test `u` when compared against the earlier surviving test `t`:
`np.array_equal` (duplicate) or pointwise `<=` (dominated). -/
def elimBy (M : Mat) (t u : Nat) : Bool :=
  decide (rowOf M u = rowOf M t) || vecLe (rowOf M u) (rowOf M t)

/-- Tests covering no requirement (`np.sum(coverage_matrix[i, :]) == 0`). -/
def emptyTests (M : Mat) : List Nat :=
  (List.range M.length).filter (fun i => (rowOf M i).all (fun b => !b))

/-- The non-empty tests, in index order. -/
def nonEmptyTests (M : Mat) : List Nat :=
  (List.range M.length).filter (fun i => !((rowOf M i).all (fun b => !b)))

/-- The left-to-right duplicate/dominance scan of `_apply_mode_a`.
The first argument accumulates `to_remove`; the second is the remaining
outer-loop worklist.  A test already in `to_remove` is skipped
(`continue` in the source); otherwise it survives, and every later
not-yet-removed test it duplicates or dominates is added to `to_remove`.
Returns (kept tests, duplicate tests, dominated tests), the latter two
in the order the Python loops append them. -/
def scanA (M : Mat) : List Nat → List Nat → List Nat × List Nat × List Nat
  | _, [] => ([], [], [])
  | removed, t :: rest =>
    if t ∈ removed then scanA M removed rest
    else
      (t :: (scanA M (removed ++ rest.filter
          (fun u => !decide (u ∈ removed) && elimBy M t u)) rest).1,
       rest.filter
          (fun u => !decide (u ∈ removed) && decide (rowOf M u = rowOf M t)) ++
        (scanA M (removed ++ rest.filter
          (fun u => !decide (u ∈ removed) && elimBy M t u)) rest).2.1,
       rest.filter
          (fun u => !decide (u ∈ removed) &&
            (vecLe (rowOf M u) (rowOf M t) && !decide (rowOf M u = rowOf M t))) ++
        (scanA M (removed ++ rest.filter
          (fun u => !decide (u ∈ removed) && elimBy M t u)) rest).2.2)

/-- The elimination report of mode A. -/
structure ElimInfoA where
  emptyT : List Nat
  dup : List Nat
  dom : List Nat
deriving DecidableEq, Repr

/-- `info["total_eliminated"]` for mode A. -/
def totalElimA (i : ElimInfoA) : Nat :=
  i.emptyT.length + i.dup.length + i.dom.length

/-- `PreprocessingModes._apply_mode_a`: returns the reduced matrix
(`coverage_matrix[tests_to_keep, :]`), the kept test indices, and the
elimination report.  If nothing survives, the first non-empty test (or
test 0) is kept, as in the source. -/
def modeA (M : Mat) : Mat × List Nat × ElimInfoA :=
  let ne := nonEmptyTests M
  let s := scanA M [] ne
  let keep := if s.1 = [] then (if ne = [] then [0] else ne.take 1) else s.1
  (keep.map (rowOf M), keep, ⟨emptyTests M, s.2.1, s.2.2⟩)

/-- The matrix of the concrete scenario in the spec: 3 tests (rows) over
4 requirements (columns); test 0 and test 1 coincide, test 2 covers
everything. -/
def scenarioMatrix : Mat :=
  [[true, true, false, false],
   [true, true, false, false],
   [true, true, true, true]]

/-- C1 counterexample: on the scenario matrix, mode A keeps TWO tests
(tests 0 and 2), not one: test 1 is eliminated as a duplicate of test 0,
but test 2, being later in the scan, is never allowed to eliminate the
earlier test 0, so test 0 survives and the reduced matrix has 2 rows. -/
theorem modeA_scenario_keeps_two_tests :
    (modeA scenarioMatrix).1.length = 2 ∧
    (modeA scenarioMatrix).2.1 = [0, 2] ∧
    (modeA scenarioMatrix).2.2.dup = [1] ∧
    (modeA scenarioMatrix).2.2.dom = [] := by
  decide

/-- C1 amended: mode A on the scenario matrix eliminates test 1 as a
duplicate of test 0 and eliminates nothing else: the forward-only
dominance scan never lets the later test 2 eliminate the earlier test 0,
so tests 0 and 2 survive and the reduced matrix has exactly the rows of
tests 0 and 2. -/
theorem modeA_scenario_result :
    modeA scenarioMatrix =
      ([[true, true, false, false], [true, true, true, true]],
       [0, 2],
       ⟨[], [1], []⟩) := by
  decide

/-! ## Mode B (`PreprocessingModes._apply_mode_b`): requirement
reduction.  Rows are tests, columns are requirements. -/

/-- Column `r` of the matrix (`coverage_matrix[:, r]`). -/
def colOf (M : Mat) (r : Nat) : List Bool := M.map (fun rw => rw.getD r false)

/-- `set(np.where(coverage_matrix[:, r] == 1)[0])`: the tests covering
requirement `r`. -/
def covSet (M : Mat) (r : Nat) : Finset Nat :=
  (Finset.range M.length).filter (fun t => getB (rowOf M t) r = true)

/-- Requirements covered by no test (`np.sum(coverage_matrix[:, r]) == 0`). -/
def uncoveredReqs (M : Mat) : List Nat :=
  (List.range (widthOf M)).filter (fun r => (colOf M r).all (fun b => !b))

/-- The covered requirements, in index order. -/
def coveredReqs (M : Mat) : List Nat :=
  (List.range (widthOf M)).filter (fun r => !((colOf M r).all (fun b => !b)))

/-- The all-pairs dominance scan of `_apply_mode_b`.  The first list
accumulates `to_remove` (in append order, which is also the
`dominated_reqs` report); the second is the remaining outer-loop
worklist.  An outer requirement already removed is skipped; otherwise
every distinct, not-yet-removed covered requirement whose covering-test
set is a strict subset of the outer one's is removed. -/
def scanB (M : Mat) (covered : List Nat) : List Nat → List Nat → List Nat
  | removed, [] => removed
  | removed, i :: rest =>
    if i ∈ removed then scanB M covered removed rest
    else
      let removed1 := removed ++ covered.filter
        (fun j => !decide (j = i) && !decide (j ∈ removed) &&
          decide (covSet M j ⊂ covSet M i))
      scanB M covered removed1 rest

/-- The elimination report of mode B. -/
structure ElimInfoB where
  uncovered : List Nat
  dominated : List Nat
deriving DecidableEq, Repr

/-- `info["total_eliminated"]` for mode B. -/
def totalElimB (i : ElimInfoB) : Nat := i.uncovered.length + i.dominated.length

/-- `PreprocessingModes._apply_mode_b`: returns the reduced matrix
(`coverage_matrix[:, requirements_to_keep]`), the kept requirement
indices, and the elimination report, with the same keep-one fallback as
mode A. -/
def modeB (M : Mat) : Mat × List Nat × ElimInfoB :=
  let cov := coveredReqs M
  let removed := scanB M cov [] cov
  let keep0 := cov.filter (fun r => !decide (r ∈ removed))
  let keep := if keep0 = [] then (if cov = [] then [0] else cov.take 1) else keep0
  (M.map (fun rw => keep.map (fun r => rw.getD r false)), keep,
   ⟨uncoveredReqs M, removed⟩)

/-! ## Mode C (`PreprocessingModes._apply_mode_c`): alternate A and B. -/

/-- The `while iteration < max_iterations` loop of `_apply_mode_c`,
with the remaining iteration budget as fuel.  Applies mode A, switches
to its output only if it eliminated something, then mode B likewise;
stops early (returning `true` as the convergence flag) when a full
A-then-B pass eliminates nothing, and returns `false` when the
iteration cap exhausts while changes were still happening. -/
def modeCAux (M : Mat) (tI rI : List Nat) :
    Nat → Mat × List Nat × List Nat × Bool
  | 0 => (M, tI, rI, false)
  | fuel + 1 =>
    let a := modeA M
    let elimA := totalElimA a.2.2
    let M1 := if 0 < elimA then a.1 else M
    let tI1 := if 0 < elimA then a.2.1.map (fun i => tI.getD i 0) else tI
    let b := modeB M1
    let elimB := totalElimB b.2.2
    let M2 := if 0 < elimB then b.1 else M1
    let rI1 := if 0 < elimB then b.2.1.map (fun i => rI.getD i 0) else rI
    if 0 < elimA ∨ 0 < elimB then modeCAux M2 tI1 rI1 fuel
    else (M2, tI1, rI1, true)

/-- `PreprocessingModes._apply_mode_c` with iteration cap
`maxIterations` (the source default is 10): tracks provenance of the
surviving test and requirement indices. -/
def modeC (M : Mat) (maxIterations : Nat) : Mat × List Nat × List Nat × Bool :=
  modeCAux M (List.range M.length) (List.range (widthOf M)) maxIterations

/-- The 1-test, 1-requirement all-zero matrix. -/
def zeroMatrix : Mat := [[false]]

/-- C5 counterexample: on the 1x1 zero matrix, mode C (default cap 10)
never converges -- every pass reports the empty test and the uncovered
requirement as eliminated while the keep-one fallback retains them --
and re-running mode A and then mode B on the mode-C output again
reports one eliminated test and one eliminated requirement, not zero. -/
theorem modeC_zero_matrix_not_fixpoint :
    (modeC zeroMatrix 10).2.2.2 = false ∧
    totalElimA (modeA (modeC zeroMatrix 10).1).2.2 = 1 ∧
    totalElimB (modeB (modeA (modeC zeroMatrix 10).1).1).2.2 = 1 := by
  decide

/-! ## Minimizer queries (`src/test_suite_minimizer.py`).
From here on the matrix is oriented as the minimizer holds it after
`load_matrix`: rows are requirements, columns are tests. -/

/-- `TestSuiteMinimizer.check_solution_coverage`: `False` for the empty
subset; otherwise every requirement covered by the full matrix must be
covered by some test of the subset
(`np.all(covered_requirements >= original_covered)`). -/
def checkSolutionCoverage (M : Mat) (sub : List Nat) : Bool :=
  if sub = [] then false
  else (List.range M.length).all
    (fun r => !((rowOf M r).any id) || sub.any (fun t => getB (rowOf M r) t))

/-- `TestSuiteMinimizer.calculate_coverage_percentage`, with the float
result represented exactly as a rational: 0 for the empty subset, 100
when no requirement has any coverage, otherwise
covered-count / total-covered-count * 100. -/
def calcCovPct (M : Mat) (sub : List Nat) : ℚ :=
  if sub = [] then 0
  else
    let total := (List.range M.length).countP (fun r => (rowOf M r).any id)
    if total = 0 then 100
    else
      (((List.range M.length).countP
          (fun r => sub.any (fun t => getB (rowOf M r) t)) : ℚ) / total) * 100

/-! ## Hill climbing (`src/hill_climbing_optimizer.py`). -/

/-- Python's `sorted` on a list of test indices. -/
def pySorted (l : List Nat) : List Nat := List.insertionSort (· ≤ ·) l

/-- `HillClimbingOptimizer.generate_neighbors`: the remove-one subsets
(each dropping one element, SKIPPED when the removal would leave the
empty list), followed by the add-one subsets (each adding one
not-included test index, re-sorted).  `numTests` is
`self.num_tests`, the column count of the optimizer's matrix. -/
def generateNeighbors (numTests : Nat) (cur : List Nat) : List (List Nat) :=
  (cur.map (fun t => cur.filter (fun u => u ≠ t))).filter (fun nb => nb ≠ []) ++
    ((List.range numTests).filter (fun t => t ∉ cur)).map
      (fun t => pySorted (cur ++ [t]))

/-- `HillClimbingOptimizer.evaluate_solution`: fitness (`+inf` is the
top element) and validity. -/
def evaluateSolution (M : Mat) (sol : List Nat) : WithTop ℚ × Bool :=
  if sol = [] then ((⊤ : WithTop ℚ), false)
  else if checkSolutionCoverage M sol then (((sol.length : ℚ) : WithTop ℚ), true)
  else ((((sol.length : ℚ) + (100 - calcCovPct M sol) * 100 : ℚ) : WithTop ℚ), false)

/-- C2 counterexample: for the size-1 solution `[0]` over 2 tests, the
remove-one proposal would be the empty subset and is NOT generated (the
source guards with `if neighbor:`), so the neighborhood is only the one
add-one subset `[0, 1]` -- not the k + (n - k) = 2 subsets the claim
demands, and the empty subset is not among the neighbors. -/
theorem generateNeighbors_skips_empty_removal :
    generateNeighbors 2 [0] = [[0, 1]] ∧
    ([] : List Nat) ∉ generateNeighbors 2 [0] ∧
    (generateNeighbors 2 [0]).length ≠ 2 := by
  decide

/-- 200 requirements (rows) over 52 tests (columns): test 1 covers every
requirement, test 0 covers all but requirement 199, tests 2..51 cover
nothing. -/
def wideMatrix : Mat :=
  (List.range 200).map (fun r => (List.range 52).map
    (fun t => t = 1 || (t = 0 && r ≠ 199)))

set_option maxRecDepth 10000 in
/-- Component facts about `wideMatrix`, provable by evaluation: the
subset `[0]` loses coverage, the full suite keeps it, 199 of the 200
covered requirements are covered by `[0]`, and the dimensions. -/
theorem wideMatrix_facts :
    checkSolutionCoverage wideMatrix [0] = false ∧
    checkSolutionCoverage wideMatrix (List.range 52) = true ∧
    (List.range 200).countP
      (fun r => [0].any (fun t => getB (rowOf wideMatrix r) t)) = 199 ∧
    (List.range 200).countP (fun r => (rowOf wideMatrix r).any id) = 200 ∧
    wideMatrix.length = 200 := by
  decide

set_option maxRecDepth 10000 in
/-- C3 counterexample: the penalty does not always outrank valid
solutions.  On `wideMatrix`, the solution `[0]` misses one requirement
of 200, so it is invalid with fitness 1 + (100 - 99.5) * 100 = 51,
while the full (valid) suite of all 52 tests has fitness 52: the
invalid solution looks strictly better than a feasible one. -/
theorem invalid_fitness_can_beat_valid :
    (evaluateSolution wideMatrix [0]).2 = false ∧
    (evaluateSolution wideMatrix (List.range 52)).2 = true ∧
    (evaluateSolution wideMatrix [0]).1 = ((51 : ℚ) : WithTop ℚ) ∧
    (evaluateSolution wideMatrix (List.range 52)).1 = ((52 : ℚ) : WithTop ℚ) ∧
    (evaluateSolution wideMatrix [0]).1 <
      (evaluateSolution wideMatrix (List.range 52)).1 := by
  obtain ⟨h1, h2, hc, ht, hlen⟩ := wideMatrix_facts
  have hpct : calcCovPct wideMatrix [0] = (199 : ℚ) / 200 * 100 := by
    simp only [calcCovPct, hlen, if_neg (by decide : ¬([0] : List Nat) = [])]
    rw [hc, ht]
    norm_num
  have hev1 : evaluateSolution wideMatrix [0] =
      (((51 : ℚ) : WithTop ℚ), false) := by
    simp only [evaluateSolution, if_neg (by decide : ¬([0] : List Nat) = []), h1,
      Bool.false_eq_true, if_false, hpct]
    norm_num
  have hev2 : evaluateSolution wideMatrix (List.range 52) =
      (((52 : ℚ) : WithTop ℚ), true) := by
    simp only [evaluateSolution, h2, if_true,
      if_neg (by decide : ¬(List.range 52) = [])]
    norm_num
  refine ⟨by rw [hev1], by rw [hev2], by rw [hev1], by rw [hev2], ?_⟩
  rw [hev1, hev2]
  exact WithTop.coe_lt_coe.mpr (by norm_num : (51 : ℚ) < 52)

/-! ## Initial solutions (`HillClimbingOptimizer.generate_initial_solution`)
and the preprocessing entry point
(`PreprocessingModes.apply_preprocessing_to_minimizer`). -/

/-- Outcome of a Python call: either an uncaught exception with its
message, or a normal return value. -/
inductive PyOutcome (α : Type) where
  | raised (msg : String)
  | returned (val : α)
deriving DecidableEq

/-- Requirements covered by test `t`
(`set(np.where(self.coverage_matrix[:, t] == 1)[0])`, rows are
requirements). -/
def coveredByTest (M : Mat) (t : Nat) : Finset Nat :=
  (Finset.range M.length).filter (fun r => getB (rowOf M r) t = true)

/-- The inner loop of the greedy strategy: scan the remaining test
indices in ascending order, tracking the best (test, newly-covered
count) seen so far; a test already in the solution is skipped, an
accumulator-less scan adopts any test with positive new coverage, and
afterwards only a strictly greater count replaces the best. -/
def greedyPickAux (M : Mat) (sol : List Nat) (uncovered : Finset Nat) :
    List Nat → Option (Nat × Nat) → Option (Nat × Nat)
  | [], acc => acc
  | t :: rest, none =>
    if t ∈ sol then greedyPickAux M sol uncovered rest none
    else
      greedyPickAux M sol uncovered rest
        (if 0 < (coveredByTest M t ∩ uncovered).card
         then some (t, (coveredByTest M t ∩ uncovered).card) else none)
  | t :: rest, some p =>
    if t ∈ sol then greedyPickAux M sol uncovered rest (some p)
    else
      greedyPickAux M sol uncovered rest
        (if p.2 < (coveredByTest M t ∩ uncovered).card
         then some (t, (coveredByTest M t ∩ uncovered).card) else some p)

/-- One round of `best_test` selection in the greedy strategy. -/
def greedyPick (M : Mat) (sol : List Nat) (uncovered : Finset Nat) :
    Option (Nat × Nat) :=
  greedyPickAux M sol uncovered (List.range (widthOf M)) none

/-- Any pick produced by `greedyPickAux` covers a positive number of
still-uncovered requirements, namely the recorded count. -/
theorem greedyPickAux_some (M : Mat) (sol : List Nat) (uncovered : Finset Nat) :
    ∀ (l : List Nat) (acc : Option (Nat × Nat)) (t c : Nat),
      (acc = none ∨ ∃ t0, acc = some (t0, (coveredByTest M t0 ∩ uncovered).card) ∧
        0 < (coveredByTest M t0 ∩ uncovered).card) →
      greedyPickAux M sol uncovered l acc = some (t, c) →
      c = (coveredByTest M t ∩ uncovered).card ∧ 0 < c := by
  intro l
  induction l with
  | nil =>
    intro acc t c hacc h
    rcases hacc with h0 | ⟨t0, he, hpos⟩
    · rw [h0] at h
      simp [greedyPickAux] at h
    · rw [he] at h
      simp only [greedyPickAux] at h
      cases h
      exact ⟨rfl, hpos⟩
  | cons x rest ih =>
    intro acc t c hacc h
    rcases hacc with h0 | ⟨t0, he, hpos⟩
    · rw [h0] at h
      simp only [greedyPickAux] at h
      by_cases hx : x ∈ sol
      · rw [if_pos hx] at h
        exact ih none t c (Or.inl rfl) h
      · rw [if_neg hx] at h
        by_cases hc : 0 < (coveredByTest M x ∩ uncovered).card
        · rw [if_pos hc] at h
          exact ih _ t c (Or.inr ⟨x, rfl, hc⟩) h
        · rw [if_neg hc] at h
          exact ih _ t c (Or.inl rfl) h
    · rw [he] at h
      simp only [greedyPickAux] at h
      by_cases hx : x ∈ sol
      · rw [if_pos hx] at h
        exact ih _ t c (Or.inr ⟨t0, rfl, hpos⟩) h
      · rw [if_neg hx] at h
        by_cases hc : (coveredByTest M t0 ∩ uncovered).card <
            (coveredByTest M x ∩ uncovered).card
        · rw [if_pos hc] at h
          exact ih _ t c (Or.inr ⟨x, rfl, Nat.lt_of_le_of_lt (Nat.zero_le _) hc⟩) h
        · rw [if_neg hc] at h
          exact ih _ t c (Or.inr ⟨t0, rfl, hpos⟩) h

/-- The `while uncovered:` loop of the greedy strategy: stop when
everything is covered or no test adds coverage, otherwise append the
picked test and discount what it covers. -/
def greedySolutionAux (M : Mat) (sol : List Nat) (uncovered : Finset Nat) :
    List Nat :=
  if uncovered = ∅ then sol
  else
    match hp : greedyPick M sol uncovered with
    | none => sol
    | some p => greedySolutionAux M (sol ++ [p.1]) (uncovered \ coveredByTest M p.1)
termination_by uncovered.card
decreasing_by
  have hsome := greedyPickAux_some M sol uncovered (List.range (widthOf M))
    none p.1 p.2 (Or.inl rfl) hp
  have hmem : ∃ x, x ∈ uncovered ∧ x ∈ coveredByTest M p.1 := by
    obtain ⟨x, hx⟩ := Finset.card_pos.mp (hsome.1 ▸ hsome.2)
    exact ⟨x, (Finset.mem_inter.mp hx).2, (Finset.mem_inter.mp hx).1⟩
  obtain ⟨x, hxu, hxc⟩ := hmem
  exact Finset.card_lt_card
    ⟨Finset.sdiff_subset, fun hsub =>
      (Finset.mem_sdiff.mp (hsub hxu)).2 hxc⟩

/-- The greedy initial strategy: start from the empty solution with
every requirement index uncovered. -/
def greedySolution (M : Mat) : List Nat :=
  greedySolutionAux M [] (Finset.range M.length)

/-- `utils.find_critical_requirements`: requirements covered by exactly
one test. -/
def criticalReqs (M : Mat) : List Nat :=
  (List.range M.length).filter (fun r => (rowOf M r).count true = 1)

/-- `utils.get_essential_tests`: for each critical requirement, the
first test covering it, collected as a set. -/
def essentialTests (M : Mat) : Finset Nat :=
  ((criticalReqs M).filterMap
    (fun r => (List.range (rowOf M r).length).find?
      (fun t => getB (rowOf M r) t))).toFinset

/-- `HillClimbingOptimizer.generate_initial_solution`: dispatch on the
strategy name; an unknown name raises `ValueError`. -/
def generateInitialSolution (M : Mat) (strategy : String) :
    PyOutcome (List Nat) :=
  if strategy = "all" then .returned (List.range (widthOf M))
  else if strategy = "greedy" then .returned (greedySolution M)
  else if strategy = "essential" then
    .returned ((essentialTests M).sort (· ≤ ·))
  else .raised ("Estrategia desconocida: " ++ strategy)

/-- Python's `str.upper()` (character-wise uppercasing). -/
def pyUpper (s : String) : String := ⟨s.data.map Char.toUpper⟩

/-- The record assembled by `apply_preprocessing_to_minimizer` (the
fields the preprocessing result dictionary carries besides the report). -/
structure PreprocResult where
  mode : String
  reduced : Mat
  keptTests : List Nat
  keptReqs : List Nat
deriving DecidableEq

/-- `PreprocessingModes.apply_preprocessing_to_minimizer`: `None` when
no matrix is loaded, otherwise dispatch on the uppercased mode; an
unrecognized mode prints an error and RETURNS `None` -- it does not
raise.  The mode-C branch uses the source default of 10 iterations. -/
def applyPreprocessingToMinimizer (cov : Option Mat) (mode : String) :
    PyOutcome (Option PreprocResult) :=
  match cov with
  | none => .returned none
  | some M =>
    let m := pyUpper mode
    if m = "A" then
      .returned (some ⟨m, (modeA M).1, (modeA M).2.1, List.range (widthOf M)⟩)
    else if m = "B" then
      .returned (some ⟨m, (modeB M).1, List.range M.length, (modeB M).2.1⟩)
    else if m = "C" then
      .returned (some ⟨m, (modeC M 10).1, (modeC M 10).2.1, (modeC M 10).2.2.1⟩)
    else .returned none

/-- C4 counterexample: the unknown preprocessing mode "D" does NOT
raise an error to the caller -- `apply_preprocessing_to_minimizer`
returns normally with `None` (after printing a message).  Only the
unknown-strategy path of `generate_initial_solution` raises. -/
theorem unknown_mode_returns_none :
    applyPreprocessingToMinimizer (some [[true]]) "D" =
      PyOutcome.returned none := by
  decide

/-- C4 amended: an unknown initial-strategy name raises a descriptive
`ValueError` from `generate_initial_solution`; an unknown preprocessing
mode (one whose uppercased form is none of "A", "B", "C") makes
`apply_preprocessing_to_minimizer` return `None` -- an error sentinel
rather than a raised exception -- and never a default-mode result. -/
theorem unknown_mode_and_strategy_fail (cov : Option Mat) (M : Mat)
    (mode strat : String)
    (hA : pyUpper mode ≠ "A") (hB : pyUpper mode ≠ "B")
    (hC : pyUpper mode ≠ "C")
    (h1 : strat ≠ "all") (h2 : strat ≠ "greedy") (h3 : strat ≠ "essential") :
    applyPreprocessingToMinimizer cov mode = PyOutcome.returned none ∧
    generateInitialSolution M strat =
      PyOutcome.raised ("Estrategia desconocida: " ++ strat) := by
  constructor
  · cases cov with
    | none => rfl
    | some m => simp [applyPreprocessingToMinimizer, hA, hB, hC]
  · simp [generateInitialSolution, h1, h2, h3]

/-- Witness for the amended C4 at mode "D" and strategy "random". -/
theorem unknown_mode_and_strategy_fail_witness :
    applyPreprocessingToMinimizer (some [[true]]) "D" =
      PyOutcome.returned none ∧
    generateInitialSolution [[true]] "random" =
      PyOutcome.raised ("Estrategia desconocida: " ++ "random") :=
  unknown_mode_and_strategy_fail (some [[true]]) [[true]] "D" "random"
    (by decide) (by decide) (by decide) (by decide) (by decide) (by decide)

/-! ## The hill-climbing loop (`HillClimbingOptimizer.optimize`). -/

/-- The loop state of `optimize`: current solution with its fitness and
validity, best-ever solution with its fitness, and the iteration
counter. -/
structure HCState where
  current : List Nat
  curF : WithTop ℚ
  curValid : Bool
  best : List Nat
  bestF : WithTop ℚ
  iter : Nat
deriving DecidableEq

/-- The state entering the main loop: the initial solution is evaluated
and duplicated into the best-ever slot, with iteration counter 0. -/
def initState (M : Mat) (init : List Nat) : HCState :=
  ⟨init, (evaluateSolution M init).1, (evaluateSolution M init).2,
   init, (evaluateSolution M init).1, 0⟩

/-- The neighbor-evaluation loop: starting from `best_neighbor = None`
and `best_neighbor_fitness = inf`, adopt each valid neighbor whose
fitness is strictly below the best seen so far. -/
def scanNeighbors (M : Mat) :
    Option (List Nat × WithTop ℚ) → List (List Nat) →
      Option (List Nat × WithTop ℚ)
  | acc, [] => acc
  | none, nb :: rest =>
    if (evaluateSolution M nb).2 &&
        decide ((evaluateSolution M nb).1 < (⊤ : WithTop ℚ)) then
      scanNeighbors M (some (nb, (evaluateSolution M nb).1)) rest
    else scanNeighbors M none rest
  | some p, nb :: rest =>
    if (evaluateSolution M nb).2 &&
        decide ((evaluateSolution M nb).1 < p.2) then
      scanNeighbors M (some (nb, (evaluateSolution M nb).1)) rest
    else scanNeighbors M (some p) rest

/-- One iteration of the main loop: `some` of the updated state when a
valid neighbor strictly better than the current solution is found (the
move is accepted and the best-ever slot updated when improved), `none`
when the loop `break`s at a local optimum. -/
def hcStep (M : Mat) (s : HCState) : Option HCState :=
  match scanNeighbors M none (generateNeighbors (widthOf M) s.current) with
  | none => none
  | some p =>
    if p.2 < s.curF then
      some ⟨p.1, p.2, true,
        if p.2 < s.bestF then p.1 else s.best,
        if p.2 < s.bestF then p.2 else s.bestF,
        s.iter + 1⟩
    else none

/-- The `while iteration < max_iterations` loop: fuel counts remaining
iterations; a `break` still increments the iteration counter, exactly
as the source does before deciding. -/
def hcRun (M : Mat) : Nat → HCState → HCState
  | 0, s => s
  | fuel + 1, s =>
    match hcStep M s with
    | some s1 => hcRun M fuel s1
    | none => { s with iter := s.iter + 1 }

/-- The `result["solution"]` of `optimize`: the best-ever solution,
sorted ascending. -/
def optimizeSolution (M : Mat) (init : List Nat) (maxIterations : Nat) :
    List Nat :=
  pySorted (hcRun M maxIterations (initState M init)).best

/-- What a successful neighbor scan means: either the accumulator is
returned unchanged, or the winner is a member of the scanned list that
evaluates as valid with the recorded fitness. -/
theorem scanNeighbors_some (M : Mat) :
    ∀ (l : List (List Nat)) (acc p),
      scanNeighbors M acc l = some p →
      acc = some p ∨
        (p.1 ∈ l ∧ evaluateSolution M p.1 = (p.2, true)) := by
  intro l
  induction l with
  | nil =>
    intro acc p h
    cases acc with
    | none => simp [scanNeighbors] at h
    | some q => simp only [scanNeighbors] at h; exact Or.inl h
  | cons nb rest ih =>
    intro acc p h
    cases acc with
    | none =>
      simp only [scanNeighbors] at h
      by_cases hcond : ((evaluateSolution M nb).2 &&
          decide ((evaluateSolution M nb).1 < (⊤ : WithTop ℚ))) = true
      · rw [if_pos hcond] at h
        rcases ih _ p h with hacc | ⟨hm, he⟩
        · cases hacc
          refine Or.inr ⟨List.mem_cons_self _ _, ?_⟩
          have hv := (Bool.and_eq_true_iff.mp hcond).1
          exact Prod.ext rfl hv
        · exact Or.inr ⟨List.mem_cons_of_mem _ hm, he⟩
      · rw [if_neg hcond] at h
        rcases ih _ p h with hacc | ⟨hm, he⟩
        · simp at hacc
        · exact Or.inr ⟨List.mem_cons_of_mem _ hm, he⟩
    | some q =>
      simp only [scanNeighbors] at h
      by_cases hcond : ((evaluateSolution M nb).2 &&
          decide ((evaluateSolution M nb).1 < q.2)) = true
      · rw [if_pos hcond] at h
        rcases ih _ p h with hacc | ⟨hm, he⟩
        · cases hacc
          refine Or.inr ⟨List.mem_cons_self _ _, ?_⟩
          have hv := (Bool.and_eq_true_iff.mp hcond).1
          exact Prod.ext rfl hv
        · exact Or.inr ⟨List.mem_cons_of_mem _ hm, he⟩
      · rw [if_neg hcond] at h
        rcases ih _ p h with hacc | ⟨hm, he⟩
        · exact Or.inl hacc
        · exact Or.inr ⟨List.mem_cons_of_mem _ hm, he⟩

/-- The valid flag of `evaluate_solution` is exactly
`check_solution_coverage`. -/
theorem evaluateSolution_valid (M : Mat) (sol : List Nat) :
    (evaluateSolution M sol).2 = checkSolutionCoverage M sol := by
  unfold evaluateSolution
  by_cases h0 : sol = []
  · simp [h0, checkSolutionCoverage]
  · rw [if_neg h0]
    by_cases hc : checkSolutionCoverage M sol
    · simp [hc]
    · simp [hc]

/-- A solution that passes `check_solution_coverage` has coverage
percentage exactly 100. -/
theorem check_implies_pct_100 (M : Mat) (sub : List Nat)
    (h : checkSolutionCoverage M sub = true) : calcCovPct M sub = 100 := by
  have hne : sub ≠ [] := by
    intro h0
    rw [checkSolutionCoverage, if_pos h0] at h
    cases h
  have hall : ∀ r ∈ List.range M.length,
      (!((rowOf M r).any id) || sub.any (fun t => getB (rowOf M r) t)) = true := by
    rw [checkSolutionCoverage, if_neg hne] at h
    exact List.all_eq_true.mp h
  rw [calcCovPct, if_neg hne]
  by_cases ht : (List.range M.length).countP (fun r => (rowOf M r).any id) = 0
  · rw [if_pos ht]
  · rw [if_neg ht]
    have hcong : (List.range M.length).countP
        (fun r => sub.any (fun t => getB (rowOf M r) t)) =
        (List.range M.length).countP (fun r => (rowOf M r).any id) := by
      refine List.countP_congr (fun r hr => ?_)
      constructor
      · intro hcov
        obtain ⟨t, _, hget⟩ := List.any_eq_true.mp hcov
        have hlt : t < (rowOf M r).length := by
          by_contra hge
          rw [getB, List.getD_eq_getElem?_getD,
            List.getElem?_eq_none (Nat.le_of_not_lt hge)] at hget
          cases hget
        exact List.any_eq_true.mpr
          ⟨(rowOf M r).get ⟨t, hlt⟩, List.get_mem _ _ hlt,
           by simpa [getB, List.getD_eq_getElem?_getD, List.getElem?_eq_getElem hlt]
             using hget⟩
      · intro horig
        have := hall r hr
        rw [horig] at this
        simpa using this
    rw [hcong]
    rw [div_self (by exact_mod_cast ht)]
    norm_num

/-- Shape of an accepted `hcStep`: the neighbor scan returned a winner
strictly better than the current fitness, and the next state is built
from it. -/
theorem hcStep_eq_some (M : Mat) (s s1 : HCState)
    (h : hcStep M s = some s1) :
    ∃ p, scanNeighbors M none (generateNeighbors (widthOf M) s.current) = some p ∧
      p.2 < s.curF ∧
      s1 = ⟨p.1, p.2, true,
        if p.2 < s.bestF then p.1 else s.best,
        if p.2 < s.bestF then p.2 else s.bestF,
        s.iter + 1⟩ := by
  unfold hcStep at h
  split at h
  next => cases h
  next p hscan =>
    split at h
    next hlt => exact ⟨p, hscan, hlt, (Option.some_inj.mp h).symm⟩
    next => cases h

/-- C8: every accepted move of the hill-climbing loop goes to a
generated neighbor that preserves coverage (so a 100% current coverage
stays 100%) and strictly decreases fitness; and at the end of the run
the best-ever solution is the current solution. -/
theorem hillclimb_invariants (M : Mat) (init : List Nat) (fuel : Nat) :
    (∀ s s1 : HCState, hcStep M s = some s1 →
      s1.current ∈ generateNeighbors (widthOf M) s.current ∧
      checkSolutionCoverage M s1.current = true ∧
      s1.curF < s.curF ∧
      (calcCovPct M s.current = 100 → calcCovPct M s1.current = 100)) ∧
    (hcRun M fuel (initState M init)).best =
      (hcRun M fuel (initState M init)).current := by
  have hstep : ∀ s s1 : HCState, hcStep M s = some s1 →
      s1.current ∈ generateNeighbors (widthOf M) s.current ∧
      checkSolutionCoverage M s1.current = true ∧
      s1.curF < s.curF ∧
      (calcCovPct M s.current = 100 → calcCovPct M s1.current = 100) := by
    intro s s1 h
    obtain ⟨p, hscan, hlt, hs1⟩ := hcStep_eq_some M s s1 h
    rcases scanNeighbors_some M _ none p hscan with hacc | ⟨hmem, heval⟩
    · cases hacc
    have hvalid : checkSolutionCoverage M p.1 = true := by
      rw [← evaluateSolution_valid, heval]
    subst hs1
    exact ⟨hmem, hvalid, hlt,
      fun _ => check_implies_pct_100 M p.1 hvalid⟩
  refine ⟨hstep, ?_⟩
  have hinv : ∀ (n : Nat) (s : HCState), s.best = s.current →
      s.bestF = s.curF →
      (hcRun M n s).best = (hcRun M n s).current ∧
      (hcRun M n s).bestF = (hcRun M n s).curF := by
    intro n
    induction n with
    | zero => intro s h1 h2; exact ⟨h1, h2⟩
    | succ k ih =>
      intro s h1 h2
      cases hstep1 : hcStep M s with
      | none => simp only [hcRun, hstep1]; exact ⟨h1, h2⟩
      | some s1 =>
        simp only [hcRun, hstep1]
        obtain ⟨p, hscan, hlt, hs1⟩ := hcStep_eq_some M s s1 hstep1
        have hbest : p.2 < s.bestF := h2 ▸ hlt
        have h1' : s1.best = s1.current := by
          rw [hs1]; simp [if_pos hbest]
        have h2' : s1.bestF = s1.curF := by
          rw [hs1]; simp [if_pos hbest]
        exact ih s1 h1' h2'
  exact (hinv fuel (initState M init) rfl rfl).1

/-- Witness matrix for C8: one requirement covered by both of two
tests. -/
def pairMatrix : Mat := [[true, true]]

/-- Witness for C8: from the full solution `[0, 1]` on `pairMatrix`,
the first iteration accepts the neighbor `[1]` (valid, fitness 1 < 2),
and after the one-iteration run best and current coincide. -/
theorem hillclimb_invariants_witness :
    ([1] ∈ generateNeighbors (widthOf pairMatrix) [0, 1] ∧
      checkSolutionCoverage pairMatrix [1] = true ∧
      (((1 : ℚ) : WithTop ℚ)) < (initState pairMatrix [0, 1]).curF ∧
      (calcCovPct pairMatrix [0, 1] = 100 → calcCovPct pairMatrix [1] = 100)) ∧
    (hcRun pairMatrix 1 (initState pairMatrix [0, 1])).best =
      (hcRun pairMatrix 1 (initState pairMatrix [0, 1])).current :=
  ⟨(hillclimb_invariants pairMatrix [0, 1] 1).1
      (initState pairMatrix [0, 1])
      ⟨[1], ((1 : ℚ) : WithTop ℚ), true, [1], ((1 : ℚ) : WithTop ℚ), 1⟩
      (by decide),
   (hillclimb_invariants pairMatrix [0, 1] 1).2⟩

/-- C10: if the initial solution is non-empty but loses coverage, and
no generated neighbor is both valid and strictly fitter than it, then
`optimize` breaks in its first iteration and returns the sorted initial
solution, which still loses coverage -- no error is raised (the
embedding is a total function returning a normal result). -/
theorem optimize_can_return_infeasible (M : Mat) (init : List Nat) (fuel : Nat)
    (h1 : init ≠ [])
    (h2 : checkSolutionCoverage M init = false)
    (h3 : ∀ nb ∈ generateNeighbors (widthOf M) init,
      (evaluateSolution M nb).2 = true →
        ¬ (evaluateSolution M nb).1 < (evaluateSolution M init).1) :
    (hcRun M (fuel + 1) (initState M init)).current = init ∧
    (hcRun M (fuel + 1) (initState M init)).best = init ∧
    (hcRun M (fuel + 1) (initState M init)).iter = 1 ∧
    optimizeSolution M init (fuel + 1) = pySorted init ∧
    checkSolutionCoverage M
      (hcRun M (fuel + 1) (initState M init)).best = false := by
  have hstep : hcStep M (initState M init) = none := by
    unfold hcStep
    split
    next => rfl
    next p hscan =>
      rcases scanNeighbors_some M _ none p hscan with hacc | ⟨hmem, heval⟩
      · cases hacc
      have hv : (evaluateSolution M p.1).2 = true := by rw [heval]
      have hnlt := h3 p.1 hmem hv
      rw [heval] at hnlt
      rw [if_neg]
      exact hnlt
  have hrun : hcRun M (fuel + 1) (initState M init) =
      ⟨init, (evaluateSolution M init).1, (evaluateSolution M init).2,
       init, (evaluateSolution M init).1, 1⟩ := by
    simp only [hcRun, hstep]
    rfl
  refine ⟨by rw [hrun], by rw [hrun], by rw [hrun], ?_, ?_⟩
  · rw [optimizeSolution, hrun]
  · rw [hrun]
    exact h2

/-- Witness matrix for C10: two requirements, covered only by tests 1
and 2 respectively; test 0 covers nothing. -/
def deadEndMatrix : Mat := [[false, true, false], [false, false, true]]

/-- Witness for C10 at the infeasible initial solution `[0]`: both
add-one neighbors still lose coverage, so the run stops at iteration 1
and returns `[0]`, which fails the coverage check. -/
theorem optimize_can_return_infeasible_witness :
    (hcRun deadEndMatrix 1 (initState deadEndMatrix [0])).current = [0] ∧
    (hcRun deadEndMatrix 1 (initState deadEndMatrix [0])).best = [0] ∧
    (hcRun deadEndMatrix 1 (initState deadEndMatrix [0])).iter = 1 ∧
    optimizeSolution deadEndMatrix [0] 1 = pySorted [0] ∧
    checkSolutionCoverage deadEndMatrix
      (hcRun deadEndMatrix 1 (initState deadEndMatrix [0])).best = false :=
  optimize_can_return_infeasible deadEndMatrix [0] 0 (by decide) (by decide)
    (by decide)

/-! ## Counting bridges between the list-level implementation and the
set-level specification. -/

/-- `countP` over `List.range` counts the same elements as a `Finset`
filter over `Finset.range`. -/
theorem countP_range_eq_card (p : Nat → Bool) (n : Nat) :
    (List.range n).countP p =
      ((Finset.range n).filter (fun x => p x = true)).card := by
  induction n with
  | zero => simp
  | succ k ih =>
    rw [List.range_succ, List.countP_append, Finset.range_succ,
      Finset.filter_insert]
    by_cases hp : p k = true
    · rw [if_pos hp, Finset.card_insert_of_not_mem (by simp)]
      simp only [List.countP_cons, List.countP_nil, hp, if_pos]
      omega
    · rw [if_neg hp]
      simp only [List.countP_cons, List.countP_nil, hp]
      simpa using ih

/-- Splitting a filter by a predicate and its negation recovers the
length. -/
theorem length_filter_add_compl {α : Type} (p : α → Bool) (l : List α) :
    (l.filter p).length + (l.filter (fun x => !(p x))).length = l.length := by
  induction l with
  | nil => rfl
  | cons a t ih =>
    by_cases hp : p a = true
    · simp [List.filter_cons, hp, ih]
      omega
    · simp only [List.filter_cons, hp, Bool.not_false,
        Bool.false_eq_true, if_false, if_neg hp]
      rw [if_pos (by simp [hp])]
      simp only [List.length_cons]
      omega

/-- A true entry found through `getB` makes `List.any id` true. -/
theorem getB_true_any (l : List Bool) (t : Nat) (h : getB l t = true) :
    l.any id = true := by
  have hlt : t < l.length := by
    by_contra hge
    rw [getB, List.getD_eq_getElem?_getD,
      List.getElem?_eq_none (Nat.le_of_not_lt hge)] at h
    cases h
  exact List.any_eq_true.mpr
    ⟨l.get ⟨t, hlt⟩, List.get_mem _ _ hlt,
     by simpa [getB, List.getD_eq_getElem?_getD, List.getElem?_eq_getElem hlt]
       using h⟩

/-- `|covered_requirements(subset)|` as the spec states it: the number
of requirement indices with a covering test in the subset. -/
def specCoveredCount (M : Mat) (sub : List Nat) : Nat :=
  ((Finset.range M.length).filter
    (fun r => ∃ t ∈ sub, getB (rowOf M r) t = true)).card

/-- `total_requirements_with_any_coverage` as the spec states it. -/
def specTotalCount (M : Mat) : Nat :=
  ((Finset.range M.length).filter (fun r => ∃ b ∈ rowOf M r, b = true)).card

/-- C9: `calculate_coverage_percentage` returns 0 for the empty subset
(also when nothing is covered at all), 100 when no requirement has any
coverage, and otherwise covered-over-total times 100; the result always
lies in [0, 100]. -/
theorem calcCovPct_spec (M : Mat) (sub : List Nat) :
    calcCovPct M sub =
      (if sub = [] then 0
       else if specTotalCount M = 0 then 100
       else (specCoveredCount M sub : ℚ) / specTotalCount M * 100) ∧
    0 ≤ calcCovPct M sub ∧ calcCovPct M sub ≤ 100 := by
  have hTotal : (List.range M.length).countP (fun r => (rowOf M r).any id) =
      specTotalCount M := by
    rw [countP_range_eq_card, specTotalCount]
    exact congrArg Finset.card
      (Finset.filter_congr (fun r _ => by simp [List.any_eq_true, id]))
  have hCov : (List.range M.length).countP
      (fun r => sub.any (fun t => getB (rowOf M r) t)) =
      specCoveredCount M sub := by
    rw [countP_range_eq_card, specCoveredCount]
    exact congrArg Finset.card
      (Finset.filter_congr (fun r _ => by simp [List.any_eq_true]))
  have hLe : specCoveredCount M sub ≤ specTotalCount M := by
    rw [← hTotal, ← hCov]
    exact List.countP_mono_left
      (fun r _ hc => by
        obtain ⟨t, _, hget⟩ := List.any_eq_true.mp hc
        exact getB_true_any _ t hget)
  have heq : calcCovPct M sub =
      (if sub = [] then 0
       else if specTotalCount M = 0 then 100
       else (specCoveredCount M sub : ℚ) / specTotalCount M * 100) := by
    rw [calcCovPct]
    by_cases h0 : sub = []
    · rw [if_pos h0, if_pos h0]
    · rw [if_neg h0, if_neg h0, hTotal, hCov]
  refine ⟨heq, ?_, ?_⟩
  · rw [heq]
    by_cases h0 : sub = []
    · rw [if_pos h0]
    · rw [if_neg h0]
      by_cases ht : specTotalCount M = 0
      · rw [if_pos ht]; norm_num
      · rw [if_neg ht]
        have : (0 : ℚ) ≤ (specCoveredCount M sub : ℚ) / specTotalCount M :=
          div_nonneg (by positivity) (by positivity)
        nlinarith
  · rw [heq]
    by_cases h0 : sub = []
    · rw [if_pos h0]; norm_num
    · rw [if_neg h0]
      by_cases ht : specTotalCount M = 0
      · rw [if_pos ht]
      · rw [if_neg ht]
        have hpos : (0 : ℚ) < (specTotalCount M : ℚ) := by
          exact_mod_cast Nat.pos_of_ne_zero ht
        have hdiv : (specCoveredCount M sub : ℚ) / specTotalCount M ≤ 1 := by
          rw [div_le_one hpos]
          exact_mod_cast hLe
        nlinarith

/-! ## C2: the neighborhood of `generate_neighbors`. -/

/-- In a duplicate-free list, filtering out one member drops exactly
one element. -/
theorem filter_ne_length (cur : List Nat) (t : Nat) (hnd : cur.Nodup)
    (ht : t ∈ cur) :
    (cur.filter (fun u => u ≠ t)).length = cur.length - 1 := by
  have hcongr : cur.filter (fun u => decide (u ≠ t)) =
      cur.filter (fun u => u != t) :=
    List.filter_congr (fun x _ => by by_cases h : x = t <;> simp [h])
  rw [hcongr, ← List.Nodup.erase_eq_filter hnd t, List.length_erase_of_mem ht]

/-- The test indices of `range n` lying in a duplicate-free, bounded
solution number exactly the solution's length. -/
theorem filter_mem_range_length (sol : List Nat) (n : Nat) (hnd : sol.Nodup)
    (hb : ∀ t ∈ sol, t < n) :
    ((List.range n).filter (fun t => decide (t ∈ sol))).length = sol.length := by
  rw [← List.countP_eq_length_filter, countP_range_eq_card]
  have hset : (Finset.range n).filter (fun t => decide (t ∈ sol) = true) =
      sol.toFinset := by
    apply Finset.ext
    intro x
    simp only [Finset.mem_filter, Finset.mem_range, decide_eq_true_eq,
      List.mem_toFinset]
    exact ⟨fun h => h.2, fun h => ⟨hb x h, h⟩⟩
  rw [hset, List.toFinset_card_of_nodup hnd]

/-- C2 amended: for a duplicate-free solution over `n` tests, the
neighborhood has (if k <= 1 then 0 else k) + (n - k) members: the k
remove-one subsets appear only when k >= 2 (the empty removal proposal
is skipped), and every add-one subset (sorted) appears. -/
theorem generateNeighbors_spec (n : Nat) (cur : List Nat)
    (hnd : cur.Nodup) (hb : ∀ t ∈ cur, t < n) :
    (generateNeighbors n cur).length =
      (if cur.length ≤ 1 then 0 else cur.length) + (n - cur.length) ∧
    (∀ t ∈ cur, 2 ≤ cur.length →
      cur.filter (fun u => u ≠ t) ∈ generateNeighbors n cur) ∧
    (∀ t, t < n → t ∉ cur → pySorted (cur ++ [t]) ∈ generateNeighbors n cur) := by
  have haddlen : (((List.range n).filter (fun t => t ∉ cur)).map
      (fun t => pySorted (cur ++ [t]))).length = n - cur.length := by
    rw [List.length_map]
    have hcongr : (List.range n).filter (fun t => decide (t ∉ cur)) =
        (List.range n).filter (fun t => !(decide (t ∈ cur))) :=
      List.filter_congr (fun x _ => by simp)
    rw [hcongr]
    have hsplit := length_filter_add_compl (fun t => decide (t ∈ cur))
      (List.range n)
    rw [filter_mem_range_length cur n hnd hb] at hsplit
    rw [List.length_range] at hsplit
    omega
  refine ⟨?_, ?_, ?_⟩
  · rw [generateNeighbors, List.length_append, haddlen]
    by_cases hk : cur.length ≤ 1
    · rw [if_pos hk]
      rcases cur with _ | ⟨a, cur'⟩
      · simp
      · rcases cur' with _ | ⟨b, cur''⟩
        · simp [pySorted]
        · simp at hk
    · rw [if_neg hk]
      have hnonempty : ∀ nb ∈ cur.map (fun t => cur.filter (fun u => u ≠ t)),
          decide (nb ≠ []) = true := by
        intro nb hnb
        obtain ⟨t, ht, rfl⟩ := List.mem_map.mp hnb
        have hlen := filter_ne_length cur t hnd ht
        rw [decide_eq_true_eq]
        intro hnil
        rw [hnil] at hlen
        simp at hlen
        omega
      rw [List.filter_eq_self.mpr hnonempty, List.length_map]
  · intro t ht hk
    apply List.mem_append_left
    apply List.mem_filter.mpr
    refine ⟨List.mem_map.mpr ⟨t, ht, rfl⟩, ?_⟩
    have hlen := filter_ne_length cur t hnd ht
    rw [decide_eq_true_eq]
    intro hnil
    rw [hnil] at hlen
    simp at hlen
    omega
  · intro t htn htc
    apply List.mem_append_right
    exact List.mem_map.mpr
      ⟨t, List.mem_filter.mpr ⟨List.mem_range.mpr htn, by simpa using htc⟩, rfl⟩

/-- Witness for the amended C2 at n = 3, solution `[0, 1]`: the
neighborhood has 2 + 1 = 3 members, the remove-one subset `[1]` and the
add-one subset `[0, 1, 2]` among them. -/
theorem generateNeighbors_spec_witness :
    (generateNeighbors 3 [0, 1]).length = 3 ∧
    [1] ∈ generateNeighbors 3 [0, 1] ∧
    [0, 1, 2] ∈ generateNeighbors 3 [0, 1] :=
  ⟨(generateNeighbors_spec 3 [0, 1] (by decide) (by decide)).1,
   (generateNeighbors_spec 3 [0, 1] (by decide) (by decide)).2.1 0 (by decide)
     (by decide),
   (generateNeighbors_spec 3 [0, 1] (by decide) (by decide)).2.2 2 (by decide)
     (by decide)⟩

/-! ## C6: soundness of mode A. -/

/-- Coverage-vector containment as the spec states it: every
requirement position set in `u` is set in `v`. -/
def coverageLe (u v : List Bool) : Prop :=
  ∀ j, getB u j = true → getB v j = true

/-- Any kept test of the scan was pending and not already removed. -/
theorem scanA_keep_mem (M : Mat) :
    ∀ (pending removed : List Nat) (u : Nat),
      u ∈ (scanA M removed pending).1 → u ∈ pending ∧ u ∉ removed := by
  intro pending
  induction pending with
  | nil => intro removed u h; simp [scanA] at h
  | cons t rest ih =>
    intro removed u h
    by_cases hm : t ∈ removed
    · rw [scanA, if_pos hm] at h
      obtain ⟨hp, hr⟩ := ih removed u h
      exact ⟨List.mem_cons_of_mem _ hp, hr⟩
    · rw [scanA, if_neg hm] at h
      rcases List.mem_cons.mp h with rfl | htail
      · exact ⟨List.mem_cons_self _ _, hm⟩
      · obtain ⟨hp, hr1⟩ := ih _ u htail
        exact ⟨List.mem_cons_of_mem _ hp,
          fun hc => hr1 (List.mem_append_left _ hc)⟩

/-- Every test the scan reports as duplicate or dominated was pending
and is eliminated (in the `elimBy` sense) by some kept test. -/
theorem scanA_elim_sound (M : Mat) :
    ∀ (pending removed : List Nat) (e : Nat),
      (e ∈ (scanA M removed pending).2.1 ∨ e ∈ (scanA M removed pending).2.2) →
      e ∈ pending ∧ ∃ t ∈ (scanA M removed pending).1, elimBy M t e = true := by
  intro pending
  induction pending with
  | nil => intro removed e h; simp [scanA] at h
  | cons t rest ih =>
    intro removed e h
    by_cases hm : t ∈ removed
    · rw [scanA, if_pos hm] at h ⊢
      obtain ⟨hp, t1, ht1, helim⟩ := ih removed e h
      exact ⟨List.mem_cons_of_mem _ hp, t1, ht1, helim⟩
    · rw [scanA, if_neg hm] at h ⊢
      rcases h with hdup | hdom
      · rcases List.mem_append.mp hdup with hstage | hrec
        · obtain ⟨hrest, hpred⟩ := List.mem_filter.mp hstage
          refine ⟨List.mem_cons_of_mem _ hrest,
            t, List.mem_cons_self _ _, ?_⟩
          rw [elimBy, Bool.or_eq_true]
          exact Or.inl (Bool.and_eq_true_iff.mp hpred).2
        · obtain ⟨hp, t1, ht1, helim⟩ := ih _ e (Or.inl hrec)
          exact ⟨List.mem_cons_of_mem _ hp, t1,
            List.mem_cons_of_mem _ ht1, helim⟩
      · rcases List.mem_append.mp hdom with hstage | hrec
        · obtain ⟨hrest, hpred⟩ := List.mem_filter.mp hstage
          refine ⟨List.mem_cons_of_mem _ hrest,
            t, List.mem_cons_self _ _, ?_⟩
          rw [elimBy, Bool.or_eq_true]
          exact Or.inr
            (Bool.and_eq_true_iff.mp
              (Bool.and_eq_true_iff.mp hpred).2).1
        · obtain ⟨hp, t1, ht1, helim⟩ := ih _ e (Or.inr hrec)
          exact ⟨List.mem_cons_of_mem _ hp, t1,
            List.mem_cons_of_mem _ ht1, helim⟩

/-- Kept tests pairwise fail the elimination condition. -/
theorem scanA_keep_pairwise (M : Mat) :
    ∀ (pending removed : List Nat),
      List.Pairwise (fun a b => elimBy M a b = false)
        (scanA M removed pending).1 := by
  intro pending
  induction pending with
  | nil => intro removed; simp [scanA]
  | cons t rest ih =>
    intro removed
    by_cases hm : t ∈ removed
    · rw [scanA, if_pos hm]; exact ih removed
    · rw [scanA, if_neg hm]
      refine List.Pairwise.cons ?_ (ih _)
      intro b hb
      obtain ⟨hbrest, hbnot1⟩ := scanA_keep_mem M rest _ b hb
      have hbr : b ∉ removed := fun hc => hbnot1 (List.mem_append_left _ hc)
      cases helim : elimBy M t b with
      | false => rfl
      | true =>
        exact absurd
          (List.mem_append_right _
            (List.mem_filter.mpr
              ⟨hbrest, by
                rw [Bool.and_eq_true]
                exact ⟨by simp [hbr], helim⟩⟩))
          hbnot1

/-- Pointwise `<=` on same-length boolean vectors gives containment of
the sets of true positions. -/
theorem vecLe_coverageLe :
    ∀ (u v : List Bool), u.length = v.length → vecLe u v = true →
      coverageLe u v := by
  intro u
  induction u with
  | nil =>
    intro v _ _ j hj
    rw [getB] at hj
    simp at hj
  | cons a u1 ih =>
    intro v hlen hle j hj
    cases v with
    | nil => simp at hlen
    | cons b v1 =>
      rw [vecLe] at hle
      simp only [List.zip_cons_cons, List.all_cons, Bool.and_eq_true] at hle
      cases j with
      | zero =>
        rw [getB, List.getD_cons_zero] at hj
        rw [getB, List.getD_cons_zero]
        have h1 := hle.1
        rw [hj] at h1
        simpa using h1
      | succ k =>
        rw [getB, List.getD_cons_succ] at hj
        rw [getB, List.getD_cons_succ]
        exact ih v1 (by simpa using hlen) hle.2 k hj

/-- Rows at in-range indices belong to the matrix. -/
theorem rowOf_mem (M : Mat) (i : Nat) (h : i < M.length) : rowOf M i ∈ M := by
  rw [rowOf, List.getD_eq_getElem?_getD, List.getElem?_eq_getElem h]
  exact List.getElem_mem h

/-- Non-empty tests are in-range test indices. -/
theorem nonEmptyTests_lt (M : Mat) (i : Nat) (h : i ∈ nonEmptyTests M) :
    i < M.length :=
  List.mem_range.mp (List.mem_filter.mp h).1

/-- Mode A always keeps at least one test. -/
theorem modeA_keep_ne_nil (M : Mat) : (modeA M).2.1 ≠ [] := by
  simp only [modeA]
  by_cases h1 : (scanA M [] (nonEmptyTests M)).1 = []
  · rw [if_pos h1]
    by_cases h2 : nonEmptyTests M = []
    · rw [if_pos h2]; simp
    · rw [if_neg h2]
      cases hne : nonEmptyTests M with
      | nil => exact absurd hne h2
      | cons x xs => simp
  · rw [if_neg h1]; exact h1

/-- C6: after mode A, every eliminated test (empty, duplicate, or
dominated) has its coverage vector contained in some surviving test's
coverage vector, and surviving tests have pairwise distinct coverage
vectors. -/
theorem modeA_sound (M : Mat) (w : Nat) (hw : ∀ r ∈ M, r.length = w) :
    (∀ e, (e ∈ (modeA M).2.2.emptyT ∨ e ∈ (modeA M).2.2.dup ∨
        e ∈ (modeA M).2.2.dom) →
      ∃ s ∈ (modeA M).2.1, coverageLe (rowOf M e) (rowOf M s)) ∧
    List.Pairwise (fun a b => rowOf M a ≠ rowOf M b) (modeA M).2.1 := by
  constructor
  · intro e he
    have hdupdom : (e ∈ (scanA M [] (nonEmptyTests M)).2.1 ∨
        e ∈ (scanA M [] (nonEmptyTests M)).2.2) →
        ∃ s ∈ (modeA M).2.1, coverageLe (rowOf M e) (rowOf M s) := by
      intro hmem
      obtain ⟨hp, t, ht, helim⟩ := scanA_elim_sound M (nonEmptyTests M) [] e hmem
      have hkeep : (modeA M).2.1 = (scanA M [] (nonEmptyTests M)).1 := by
        simp only [modeA]
        rw [if_neg (List.ne_nil_of_mem ht)]
      refine ⟨t, hkeep ▸ ht, ?_⟩
      rw [elimBy, Bool.or_eq_true] at helim
      rcases helim with heq | hle
      · rw [decide_eq_true_eq] at heq
        intro j hj
        rw [← heq]
        exact hj
      · have hte : t ∈ nonEmptyTests M := (scanA_keep_mem M _ _ t ht).1
        have hlen1 := hw (rowOf M e) (rowOf_mem M e (nonEmptyTests_lt M e hp))
        have hlen2 := hw (rowOf M t) (rowOf_mem M t (nonEmptyTests_lt M t hte))
        exact vecLe_coverageLe _ _ (hlen1.trans hlen2.symm) hle
    rcases he with hempty | hdup | hdom
    · have hall := (List.mem_filter.mp hempty).2
      have hvac : coverageLe (rowOf M e) (rowOf M e) →
          ∀ s, coverageLe (rowOf M e) (rowOf M s) := by
        intro _ s j hj
        have hany := getB_true_any _ j hj
        obtain ⟨b, hb, hbt⟩ := List.any_eq_true.mp hany
        have := List.all_eq_true.mp hall b hb
        rw [show b = true from by simpa using hbt] at this
        cases this
      obtain ⟨s, hs⟩ := List.exists_mem_of_ne_nil _ (modeA_keep_ne_nil M)
      exact ⟨s, hs, hvac (fun j hj => hj) s⟩
    · exact hdupdom (Or.inl (by simpa only [modeA] using hdup))
    · exact hdupdom (Or.inr (by simpa only [modeA] using hdom))
  · simp only [modeA]
    by_cases h1 : (scanA M [] (nonEmptyTests M)).1 = []
    · rw [if_pos h1]
      by_cases h2 : nonEmptyTests M = []
      · rw [if_pos h2]; exact List.pairwise_singleton _ _
      · rw [if_neg h2]
        cases hne : nonEmptyTests M with
        | nil => exact absurd hne h2
        | cons x xs =>
          simp only [List.take_succ_cons, List.take_zero]
          exact List.pairwise_singleton _ _
    · rw [if_neg h1]
      refine (scanA_keep_pairwise M (nonEmptyTests M) []).imp ?_
      intro a b hab
      rw [elimBy] at hab
      have h2 := (Bool.or_eq_false_iff.mp hab).1
      rw [decide_eq_false_iff_not] at h2
      exact fun hrow => h2 hrow.symm

/-- Witness for C6 on the scenario matrix (all rows have length 4): the
eliminated duplicate test 1 is covered by a survivor, and the survivors
`[0, 2]` have distinct rows. -/
theorem modeA_sound_witness :
    (∃ s ∈ (modeA scenarioMatrix).2.1,
      coverageLe (rowOf scenarioMatrix 1) (rowOf scenarioMatrix s)) ∧
    List.Pairwise (fun a b => rowOf scenarioMatrix a ≠ rowOf scenarioMatrix b)
      (modeA scenarioMatrix).2.1 :=
  ⟨(modeA_sound scenarioMatrix 4 (by decide)).1 1
      (Or.inr (Or.inl (by decide))),
   (modeA_sound scenarioMatrix 4 (by decide)).2⟩

/-! ## C7: soundness of mode B. -/

/-- The removal accumulator of the mode-B scan only grows. -/
theorem scanB_subset (M : Mat) (covered : List Nat) :
    ∀ (pending removed : List Nat) (x : Nat),
      x ∈ removed → x ∈ scanB M covered removed pending := by
  intro pending
  induction pending with
  | nil => intro removed x hx; simpa [scanB] using hx
  | cons i rest ih =>
    intro removed x hx
    by_cases hm : i ∈ removed
    · rw [scanB, if_pos hm]; exact ih removed x hx
    · rw [scanB, if_neg hm]
      exact ih _ x (List.mem_append_left _ hx)

/-- Core invariant of the mode-B scan: two covered requirements that
both escape removal are never in strict covering-set containment. -/
theorem scanB_sound (M : Mat) (covered : List Nat) :
    ∀ (pending removed : List Nat) (a b : Nat),
      a ∈ pending → a ∉ scanB M covered removed pending →
      b ∈ covered → b ≠ a → b ∉ scanB M covered removed pending →
      ¬ (covSet M b ⊂ covSet M a) := by
  intro pending
  induction pending with
  | nil => intro removed a b ha; simp at ha
  | cons i rest ih =>
    intro removed a b ha hanot hb hne hbnot hsub
    by_cases hm : i ∈ removed
    · rw [scanB, if_pos hm] at hanot hbnot
      rcases List.mem_cons.mp ha with rfl | harest
      · exact hanot (scanB_subset M covered rest removed a hm)
      · exact ih removed a b harest hanot hb hne hbnot hsub
    · rw [scanB, if_neg hm] at hanot hbnot
      rcases List.mem_cons.mp ha with rfl | harest
      · apply hbnot
        apply scanB_subset
        apply List.mem_append_right
        apply List.mem_filter.mpr
        refine ⟨hb, ?_⟩
        have hbrem : b ∉ removed := fun hc =>
          hbnot (scanB_subset M covered rest _ b (List.mem_append_left _ hc))
        simp [hne, hbrem, hsub]
      · exact ih _ a b harest hanot hb hne hbnot hsub

/-- C7: after mode B, for distinct surviving requirements the set of
tests covering one is never a strict subset of the set covering the
other. -/
theorem modeB_sound (M : Mat) (a b : Nat)
    (ha : a ∈ (modeB M).2.1) (hb : b ∈ (modeB M).2.1) (hne : b ≠ a) :
    ¬ (covSet M b ⊂ covSet M a) := by
  simp only [modeB] at ha hb
  by_cases h1 : (coveredReqs M).filter
      (fun r => !decide (r ∈ scanB M (coveredReqs M) [] (coveredReqs M))) = []
  · rw [if_pos h1] at ha hb
    by_cases h2 : coveredReqs M = []
    · rw [if_pos h2] at ha hb
      rw [List.mem_singleton] at ha hb
      exact absurd (hb.trans ha.symm) hne
    · rw [if_neg h2] at ha hb
      cases hc : coveredReqs M with
      | nil => exact absurd hc h2
      | cons x xs =>
        rw [hc, List.take_succ_cons, List.take_zero, List.mem_singleton]
          at ha hb
        exact absurd (hb.trans ha.symm) hne
  · rw [if_neg h1] at ha hb
    obtain ⟨hac, hapred⟩ := List.mem_filter.mp ha
    obtain ⟨hbc, hbpred⟩ := List.mem_filter.mp hb
    refine scanB_sound M (coveredReqs M) (coveredReqs M) [] a b hac ?_ hbc hne ?_
    · simpa using hapred
    · simpa using hbpred

/-- A 2-test, 2-requirement identity matrix: both requirements survive
mode B. -/
def idMatrix : Mat := [[true, false], [false, true]]

/-- Witness for C7: on the identity matrix both requirements survive
and neither covering set strictly contains the other. -/
theorem modeB_sound_witness :
    ¬ (covSet idMatrix 1 ⊂ covSet idMatrix 0) :=
  modeB_sound idMatrix 0 1 (by decide) (by decide) (by decide)

/-! ## C5 (amended): when mode C converges, its output is a fixpoint. -/

/-- A scan reporting no duplicates and no dominated tests keeps every
pending test not already removed. -/
theorem scanA_no_elim_keep (M : Mat) :
    ∀ (pending removed : List Nat),
      (scanA M removed pending).2.1 = [] →
      (scanA M removed pending).2.2 = [] →
      (scanA M removed pending).1 =
        pending.filter (fun u => !decide (u ∈ removed)) := by
  intro pending
  induction pending with
  | nil => intro removed _ _; simp [scanA]
  | cons t rest ih =>
    intro removed hdup hdom
    by_cases hm : t ∈ removed
    · rw [scanA, if_pos hm] at hdup hdom ⊢
      rw [ih removed hdup hdom, List.filter_cons, if_neg (by simp [hm])]
    · rw [scanA, if_neg hm] at hdup hdom ⊢
      obtain ⟨hs1, hr1⟩ := List.append_eq_nil.mp hdup
      obtain ⟨hs2, hr2⟩ := List.append_eq_nil.mp hdom
      have hfilter : rest.filter
          (fun u => !decide (u ∈ removed) && elimBy M t u) = [] := by
        rw [List.filter_eq_nil_iff]
        intro u hu hpred
        obtain ⟨hurem, helim⟩ := Bool.and_eq_true_iff.mp hpred
        rw [elimBy, Bool.or_eq_true] at helim
        by_cases heq : rowOf M u = rowOf M t
        · have hmem2 : u ∈ rest.filter
              (fun u => !decide (u ∈ removed) &&
                decide (rowOf M u = rowOf M t)) := by
            refine List.mem_filter.mpr ⟨hu, ?_⟩
            rw [Bool.and_eq_true]
            exact ⟨hurem, by simp [heq]⟩
          rw [hs1] at hmem2
          exact absurd hmem2 (List.not_mem_nil u)
        · have hle : vecLe (rowOf M u) (rowOf M t) = true := by
            rcases helim with h | h
            · exact absurd (decide_eq_true_eq.mp h) heq
            · exact h
          have hmem2 : u ∈ rest.filter
              (fun u => !decide (u ∈ removed) &&
                (vecLe (rowOf M u) (rowOf M t) &&
                  !decide (rowOf M u = rowOf M t))) := by
            refine List.mem_filter.mpr ⟨hu, ?_⟩
            rw [Bool.and_eq_true]
            refine ⟨hurem, ?_⟩
            rw [Bool.and_eq_true]
            exact ⟨hle, by simp [heq]⟩
          rw [hs2] at hmem2
          exact absurd hmem2 (List.not_mem_nil u)
      rw [hfilter, List.append_nil] at hr1 hr2 ⊢
      rw [ih removed hr1 hr2, List.filter_cons, if_pos (by simp [hm])]

/-- Selecting every row in order reproduces the matrix. -/
theorem map_rowOf_range (M : Mat) :
    (List.range M.length).map (rowOf M) = M := by
  apply List.ext_getElem
  · simp
  · intro i h1 h2
    simp [rowOf, List.getD_eq_getElem?_getD, List.getElem?_eq_getElem h2]

/-- A mode-A pass that eliminates nothing returns the matrix unchanged
(for a non-empty matrix) and keeps every test. -/
theorem modeA_total_zero (M : Mat) (hM : M ≠ [])
    (h : totalElimA (modeA M).2.2 = 0) :
    (modeA M).1 = M ∧ (modeA M).2.1 = List.range M.length := by
  have hinfo : (modeA M).2.2 = ⟨emptyTests M,
      (scanA M [] (nonEmptyTests M)).2.1,
      (scanA M [] (nonEmptyTests M)).2.2⟩ := by
    simp only [modeA]
  rw [hinfo] at h
  simp only [totalElimA] at h
  have hempty : emptyTests M = [] :=
    List.length_eq_zero.mp (by omega)
  have hdup : (scanA M [] (nonEmptyTests M)).2.1 = [] :=
    List.length_eq_zero.mp (by omega)
  have hdom : (scanA M [] (nonEmptyTests M)).2.2 = [] :=
    List.length_eq_zero.mp (by omega)
  have hne : nonEmptyTests M = List.range M.length := by
    rw [nonEmptyTests]
    apply List.filter_eq_self.mpr
    intro i hi
    have := List.filter_eq_nil_iff.mp hempty i hi
    simpa using this
  have hkeep : (scanA M [] (nonEmptyTests M)).1 = List.range M.length := by
    rw [scanA_no_elim_keep M _ [] hdup hdom, hne]
    apply List.filter_eq_self.mpr
    intro i _
    simp
  have hrange : List.range M.length ≠ [] := by
    rw [ne_eq, List.range_eq_nil]
    exact fun h0 => hM (List.length_eq_zero.mp h0)
  constructor
  · simp only [modeA]
    rw [if_neg (hkeep ▸ hrange), hkeep, map_rowOf_range]
  · simp only [modeA]
    rw [if_neg (hkeep ▸ hrange), hkeep]

/-- C5 amended (auxiliary): whenever the iterative loop exits through
its zero-elimination check, re-running mode A and then mode B on the
output matrix eliminates nothing. -/
theorem modeCAux_converged :
    ∀ (fuel : Nat) (M : Mat) (tI rI : List Nat),
      (modeCAux M tI rI fuel).2.2.2 = true →
      totalElimA (modeA (modeCAux M tI rI fuel).1).2.2 = 0 ∧
      totalElimB (modeB (modeA (modeCAux M tI rI fuel).1).1).2.2 = 0 := by
  intro fuel
  induction fuel with
  | zero => intro M tI rI h; simp [modeCAux] at h
  | succ k ih =>
    intro M tI rI h
    by_cases hA : 0 < totalElimA (modeA M).2.2
    · rw [modeCAux] at h ⊢
      rw [if_pos (Or.inl hA)] at h ⊢
      exact ih _ _ _ h
    · rw [modeCAux] at h ⊢
      rw [if_neg hA] at h ⊢
      by_cases hB : 0 < totalElimB (modeB M).2.2
      · rw [if_pos (Or.inr hB)] at h ⊢
        exact ih _ _ _ h
      · rw [if_neg (by rw [not_or]; exact ⟨hA, hB⟩), if_neg hB] at h ⊢
        have hA0 : totalElimA (modeA M).2.2 = 0 := by omega
        constructor
        · show totalElimA (modeA M).2.2 = 0
          exact hA0
        · show totalElimB (modeB (modeA M).1).2.2 = 0
          by_cases hM : M = []
          · subst hM
            have hred : (modeA ([] : Mat)).1 = [[]] := by decide
            rw [hred]
            decide
          · rw [(modeA_total_zero M hM hA0).1]
            omega

/-- C5 amended: if mode C reports convergence (it stopped because a
full A-then-B pass eliminated nothing, rather than hitting the
iteration cap), then re-running mode A and then mode B on its output
matrix yields zero further eliminations. -/
theorem modeC_converged_fixpoint (M : Mat) (maxIterations : Nat)
    (h : (modeC M maxIterations).2.2.2 = true) :
    totalElimA (modeA (modeC M maxIterations).1).2.2 = 0 ∧
    totalElimB (modeB (modeA (modeC M maxIterations).1).1).2.2 = 0 :=
  modeCAux_converged maxIterations M _ _ h

/-- Witness for the amended C5: on the 1x1 all-ones matrix mode C
converges, and the re-run eliminates nothing. -/
theorem modeC_converged_fixpoint_witness :
    totalElimA (modeA (modeC [[true]] 10).1).2.2 = 0 ∧
    totalElimB (modeB (modeA (modeC [[true]] 10).1).1).2.2 = 0 :=
  modeC_converged_fixpoint [[true]] 10 (by decide)

/-! ## C3 (amended): the shape of `evaluate_solution`. -/

/-- "The solution preserves full original coverage" as the spec states
it: every requirement with any coverage in the matrix is covered by
some test of the solution. -/
def specPreservesCoverage (M : Mat) (sol : List Nat) : Prop :=
  ∀ r, r < M.length → (rowOf M r).any id = true →
    ∃ t ∈ sol, getB (rowOf M r) t = true

/-- C3 amended: `evaluate_solution` is valid exactly on non-empty
coverage-preserving solutions; the empty solution has fitness `+inf`
and is invalid; a valid solution's fitness is its length; an invalid
non-empty solution's fitness is
`len + (100 - coverage_percentage) * 100`.  (The further original claim
that an invalid fitness always exceeds every valid fitness is refuted
by `invalid_fitness_can_beat_valid`.) -/
theorem evaluateSolution_spec (M : Mat) (sol : List Nat) :
    ((evaluateSolution M sol).2 = true ↔
      sol ≠ [] ∧ specPreservesCoverage M sol) ∧
    (sol = [] → evaluateSolution M sol = ((⊤ : WithTop ℚ), false)) ∧
    ((evaluateSolution M sol).2 = true →
      (evaluateSolution M sol).1 = ((sol.length : ℚ) : WithTop ℚ)) ∧
    ((evaluateSolution M sol).2 = false → sol ≠ [] →
      (evaluateSolution M sol).1 =
        (((sol.length : ℚ) + (100 - calcCovPct M sol) * 100 : ℚ) :
          WithTop ℚ)) := by
  have hcheckiff : checkSolutionCoverage M sol = true ↔
      (sol ≠ [] ∧ specPreservesCoverage M sol) := by
    rw [checkSolutionCoverage]
    by_cases h0 : sol = []
    · rw [if_pos h0]
      simp [h0]
    · rw [if_neg h0, List.all_eq_true]
      constructor
      · intro hall
        refine ⟨h0, fun r hr hany => ?_⟩
        have hr2 := hall r (List.mem_range.mpr hr)
        rw [hany] at hr2
        simp only [Bool.not_true, Bool.false_or] at hr2
        obtain ⟨t, ht, hget⟩ := List.any_eq_true.mp hr2
        exact ⟨t, ht, hget⟩
      · rintro ⟨_, hpres⟩ r hr
        by_cases hany : (rowOf M r).any id = true
        · obtain ⟨t, ht, hget⟩ := hpres r (List.mem_range.mp hr) hany
          rw [Bool.or_eq_true]
          exact Or.inr (List.any_eq_true.mpr ⟨t, ht, hget⟩)
        · rw [Bool.or_eq_true]
          exact Or.inl (by simp [Bool.not_eq_true] at hany ⊢; exact hany)
  refine ⟨?_, ?_, ?_, ?_⟩
  · rw [evaluateSolution_valid]
    exact hcheckiff
  · intro h0
    rw [evaluateSolution, if_pos h0]
  · intro hv
    rw [evaluateSolution_valid] at hv
    have h0 : sol ≠ [] := (hcheckiff.mp hv).1
    rw [evaluateSolution, if_neg h0, if_pos hv]
  · intro hv h0
    rw [evaluateSolution_valid] at hv
    rw [evaluateSolution, if_neg h0, if_neg (by simp [hv])]

/-- Two requirements, one covered only by test 0, one uncovered. -/
def smallMatrix : Mat := [[true, false], [false, false]]

/-- Witness for the amended C3 on `smallMatrix`: the valid solution
`[0]` has fitness 1, the empty solution evaluates to `(inf, false)`,
and the invalid solution `[1]` gets the penalty fitness. -/
theorem evaluateSolution_spec_witness :
    (evaluateSolution smallMatrix [0]).1 = (([0].length : ℚ) : WithTop ℚ) ∧
    evaluateSolution smallMatrix [] = ((⊤ : WithTop ℚ), false) ∧
    (evaluateSolution smallMatrix [1]).1 =
      ((([1].length : ℚ) + (100 - calcCovPct smallMatrix [1]) * 100 : ℚ) :
        WithTop ℚ) :=
  ⟨(evaluateSolution_spec smallMatrix [0]).2.2.1 (by decide),
   (evaluateSolution_spec smallMatrix []).2.1 rfl,
   (evaluateSolution_spec smallMatrix [1]).2.2.2 (by decide) (by decide)⟩

end TSM
